import Mathlib

/-!
Verification of the gnss_share device-session core.

Bytes are modelled as `Nat` (ASCII codes), byte strings as `List Nat`.
The device byte stream is modelled as a retained buffer plus the list of
chunks the read primitive will deliver, in order (`FramerState`); an
exhausted chunk list models a read that blocks forever, so functions whose
run would block return `none` / a `blocked` result.

The definitions follow the source files of the repository:
  - `readline` (shared by `STM_AGPS.readline` and `STM_AGPS_SERIAL.readline`,
    which run the identical algorithm and differ only in chunk size and in
    the sleep instrumentation treated separately below),
  - `_serial_write_cmd`, `_store_to_file`, `_load_from_file`, `load`,
  - the `_run_loop` body of `GnssShare` and the per-connection broadcast
    iteration.
-/

/-- ASCII bytes of a string literal. -/
def bytes (s : String) : List Nat := s.data.map Char.toNat

/-- Python `data.find(b) >= 0` splitting: the prefix of `bs` up to and
including the first newline byte (10), together with the remainder;
`none` when `bs` holds no newline.  This models
`idx = buf.find(b'\n'); buf[:idx+1], buf[idx+1:]`. -/
def splitAtNl : List Nat → Option (List Nat × List Nat)
  | [] => none
  | b :: rest =>
    if b = 10 then some ([10], rest)
    else (splitAtNl rest).map fun pq => (b :: pq.1, pq.2)

/-- State of the line framer: the retained partial-line buffer `self._buf`
and the chunks the transport will deliver on successive
`receive_some` calls. -/
structure FramerState where
  buf : List Nat
  chunks : List (List Nat)
deriving DecidableEq, Repr

/-- All bytes the framer can ever see: retained buffer followed by every
chunk still to be delivered. -/
def streamOf (s : FramerState) : List Nat := s.buf ++ s.chunks.flatten

/-- The chunk-reading loop of `readline`
(`while True: data = receive_some(..); ...`): scan each incoming chunk for
a newline; on a hit return `buf + data[:idx+1]` and retain `data[idx+1:]`;
otherwise extend the buffer and read again.  `none` models the read
blocking forever because the device sends nothing more. -/
def readlineLoop : List Nat → List (List Nat) → Option (List Nat × FramerState)
  | _, [] => none
  | buf, data :: rest =>
    match splitAtNl data with
    | some (pre, post) => some (buf ++ pre, ⟨post, rest⟩)
    | none => readlineLoop (buf ++ data) rest

/-- `STM_AGPS.readline` / `STM_AGPS_SERIAL.readline`: return the buffered
line if the retained buffer already holds a newline, else enter the
chunk-reading loop. -/
def readline (s : FramerState) : Option (List Nat × FramerState) :=
  match splitAtNl s.buf with
  | some (pre, post) => some (pre, ⟨post, s.chunks⟩)
  | none => readlineLoop s.buf s.chunks

/-- Repeated calls to `readline`, collecting every line produced until the
stream can produce no more.  `fuel` bounds the number of calls; any
`fuel ≥ streamOf s |>.length` is enough (each line consumes at least its
newline byte). -/
def readLines : Nat → FramerState → List (List Nat)
  | 0, _ => []
  | fuel + 1, s =>
    match readline s with
    | none => []
    | some (line, s') => line :: readLines fuel s'

/-- Fueled decomposition of a byte string into its newline-terminated
records (a trailing unterminated fragment yields no record). -/
def linesOfF : Nat → List Nat → List (List Nat)
  | 0, _ => []
  | fuel + 1, bs =>
    match splitAtNl bs with
    | none => []
    | some (pre, post) => pre :: linesOfF fuel post

/-- The newline-terminated records of a byte string. -/
def linesOf (bs : List Nat) : List (List Nat) := linesOfF bs.length bs

/- ## Basic lemmas about `splitAtNl` -/

theorem splitAtNl_append_ : ∀ {a : List Nat} {pre post : List Nat},
    splitAtNl a = some (pre, post) →
    ∀ b : List Nat, splitAtNl (a ++ b) = some (pre, post ++ b) := by
  intro a
  induction a with
  | nil => intro pre post h b; simp [splitAtNl] at h
  | cons x xs ih =>
    intro pre post h b
    by_cases hx : x = 10
    · subst hx
      simp [splitAtNl] at h
      simp [splitAtNl, ← h.1, ← h.2]
    · cases hsp : splitAtNl xs with
      | none => simp [splitAtNl, hx, hsp] at h
      | some pq =>
        obtain ⟨p, q⟩ := pq
        simp [splitAtNl, hx, hsp] at h
        simp [splitAtNl, hx, ih hsp b, ← h.1, ← h.2]

theorem splitAtNl_none_append : ∀ {a : List Nat}, splitAtNl a = none →
    ∀ b : List Nat,
      splitAtNl (a ++ b) = (splitAtNl b).map fun pq => (a ++ pq.1, pq.2) := by
  intro a
  induction a with
  | nil =>
    intro _ b
    simp only [List.nil_append]
    cases splitAtNl b <;> simp
  | cons x xs ih =>
    intro h b
    by_cases hx : x = 10
    · subst hx; simp [splitAtNl] at h
    · have hxs : splitAtNl xs = none := by
        cases hsp : splitAtNl xs with
        | none => rfl
        | some pq => simp [splitAtNl, hx, hsp] at h
      have e1 : splitAtNl (x :: xs ++ b)
          = (splitAtNl (xs ++ b)).map fun pq => (x :: pq.1, pq.2) := by
        simp [splitAtNl, hx]
      rw [e1, ih hxs b]
      cases splitAtNl b <;> simp

theorem splitAtNl_eq_append : ∀ {bs pre post : List Nat},
    splitAtNl bs = some (pre, post) → bs = pre ++ post := by
  intro bs
  induction bs with
  | nil => intro pre post h; simp [splitAtNl] at h
  | cons x xs ih =>
    intro pre post h
    by_cases hx : x = 10
    · subst hx
      simp [splitAtNl] at h
      simp [← h.1, ← h.2]
    · cases hsp : splitAtNl xs with
      | none => simp [splitAtNl, hx, hsp] at h
      | some pq =>
        obtain ⟨p, q⟩ := pq
        simp [splitAtNl, hx, hsp] at h
        have := ih hsp
        simp [← h.1, ← h.2, this]

theorem splitAtNl_shape : ∀ {bs pre post : List Nat},
    splitAtNl bs = some (pre, post) →
    ∃ p, pre = p ++ [10] ∧ 10 ∉ p := by
  intro bs
  induction bs with
  | nil => intro pre post h; simp [splitAtNl] at h
  | cons x xs ih =>
    intro pre post h
    by_cases hx : x = 10
    · subst hx
      simp [splitAtNl] at h
      exact ⟨[], by simp [← h.1]⟩
    · cases hsp : splitAtNl xs with
      | none => simp [splitAtNl, hx, hsp] at h
      | some pq =>
        obtain ⟨p, q⟩ := pq
        simp [splitAtNl, hx, hsp] at h
        obtain ⟨p0, hp0, hnp0⟩ := ih hsp
        refine ⟨x :: p0, ?_, ?_⟩
        · simp [← h.1, hp0]
        · simp [hnp0]
          omega

theorem splitAtNl_pre_ne_nil {bs pre post : List Nat}
    (h : splitAtNl bs = some (pre, post)) : pre ≠ [] := by
  obtain ⟨p, hp, _⟩ := splitAtNl_shape h
  simp [hp]

theorem splitAtNl_post_lt {bs pre post : List Nat}
    (h : splitAtNl bs = some (pre, post)) : post.length < bs.length := by
  have he := splitAtNl_eq_append h
  have hne := splitAtNl_pre_ne_nil h
  have : 0 < pre.length := List.length_pos.mpr hne
  simp [he]
  omega

/- ## Bridging `readline` to the whole-stream view -/

theorem readlineLoop_some : ∀ {chunks : List (List Nat)} {buf line : List Nat}
    {s' : FramerState}, splitAtNl buf = none →
    readlineLoop buf chunks = some (line, s') →
    splitAtNl (buf ++ chunks.flatten) = some (line, streamOf s') := by
  intro chunks
  induction chunks with
  | nil => intro buf line s' _ h; simp [readlineLoop] at h
  | cons data rest ih =>
    intro buf line s' hbuf h
    cases hsp : splitAtNl data with
    | some pq =>
      obtain ⟨pre, post⟩ := pq
      simp [readlineLoop, hsp] at h
      have e1 : splitAtNl (data ++ rest.flatten)
          = some (pre, post ++ rest.flatten) := splitAtNl_append_ hsp _
      have e2 := splitAtNl_none_append hbuf (data ++ rest.flatten)
      rw [e1] at e2
      simp only [List.flatten_cons]
      rw [e2, ← h.1, ← h.2]
      simp [streamOf]
    | none =>
      simp [readlineLoop, hsp] at h
      have hbd : splitAtNl (buf ++ data) = none := by
        rw [splitAtNl_none_append hbuf data, hsp]; rfl
      have := ih hbd h
      simpa [List.append_assoc] using this

theorem readlineLoop_none : ∀ {chunks : List (List Nat)} {buf : List Nat},
    splitAtNl buf = none → readlineLoop buf chunks = none →
    splitAtNl (buf ++ chunks.flatten) = none := by
  intro chunks
  induction chunks with
  | nil => intro buf hbuf _; simpa using hbuf
  | cons data rest ih =>
    intro buf hbuf h
    cases hsp : splitAtNl data with
    | some pq => simp [readlineLoop, hsp] at h
    | none =>
      simp [readlineLoop, hsp] at h
      have hbd : splitAtNl (buf ++ data) = none := by
        rw [splitAtNl_none_append hbuf data, hsp]; rfl
      have := ih hbd h
      simpa [List.append_assoc] using this

theorem readline_some {s : FramerState} {line : List Nat} {s' : FramerState}
    (h : readline s = some (line, s')) :
    splitAtNl (streamOf s) = some (line, streamOf s') := by
  unfold readline at h
  cases hsp : splitAtNl s.buf with
  | some pq =>
    obtain ⟨pre, post⟩ := pq
    rw [hsp] at h
    simp at h
    have := splitAtNl_append_ hsp s.chunks.flatten
    rw [← h.1, ← h.2]
    simpa [streamOf] using this
  | none =>
    rw [hsp] at h
    exact readlineLoop_some hsp h

theorem readline_none {s : FramerState} (h : readline s = none) :
    splitAtNl (streamOf s) = none := by
  unfold readline at h
  cases hsp : splitAtNl s.buf with
  | some pq => rw [hsp] at h; simp at h
  | none => rw [hsp] at h; exact readlineLoop_none hsp h

/- ## `linesOf` unfolding -/

theorem linesOfF_congr : ∀ (f g : Nat) (bs : List Nat),
    bs.length ≤ f → bs.length ≤ g → linesOfF f bs = linesOfF g bs := by
  intro f
  induction f with
  | zero =>
    intro g bs hf _
    have : bs = [] := List.length_eq_zero.mp (Nat.le_zero.mp hf)
    subst this
    cases g <;> simp [linesOfF, splitAtNl]
  | succ f ih =>
    intro g bs hf hg
    cases g with
    | zero =>
      have : bs = [] := List.length_eq_zero.mp (Nat.le_zero.mp hg)
      subst this
      simp [linesOfF, splitAtNl]
    | succ g =>
      cases hsp : splitAtNl bs with
      | none => simp [linesOfF, hsp]
      | some pq =>
        obtain ⟨pre, post⟩ := pq
        have hlt := splitAtNl_post_lt hsp
        simp only [linesOfF, hsp]
        rw [ih g post (by omega) (by omega)]

theorem linesOf_cons {bs pre post : List Nat}
    (h : splitAtNl bs = some (pre, post)) :
    linesOf bs = pre :: linesOf post := by
  have hlt := splitAtNl_post_lt h
  unfold linesOf
  cases hbs : bs.length with
  | zero =>
    exact absurd h (by
      have : bs = [] := List.length_eq_zero.mp hbs
      simp [this, splitAtNl])
  | succ n =>
    simp only [linesOfF, h]
    rw [linesOfF_congr n post.length post (by omega) (le_refl _)]

theorem linesOf_none {bs : List Nat} (h : splitAtNl bs = none) :
    linesOf bs = [] := by
  unfold linesOf
  cases hbs : bs.length with
  | zero => simp [linesOfF]
  | succ n => simp [linesOfF, h]

theorem linesOf_mem_shape {bs : List Nat} :
    ∀ l ∈ linesOf bs, ∃ p, l = p ++ [10] ∧ 10 ∉ p := by
  have H : ∀ n bs, List.length bs ≤ n →
      ∀ l ∈ linesOf bs, ∃ p, l = p ++ [10] ∧ 10 ∉ p := by
    intro n
    induction n with
    | zero =>
      intro bs hb l hl
      have : bs = [] := List.length_eq_zero.mp (Nat.le_zero.mp hb)
      subst this
      rw [linesOf_none (by simp [splitAtNl])] at hl
      simp at hl
    | succ n ih =>
      intro bs hb l hl
      cases hsp : splitAtNl bs with
      | none => rw [linesOf_none hsp] at hl; simp at hl
      | some pq =>
        obtain ⟨pre, post⟩ := pq
        rw [linesOf_cons hsp] at hl
        have hlt := splitAtNl_post_lt hsp
        rcases List.mem_cons.mp hl with hl | hl
        · subst hl; exact splitAtNl_shape hsp
        · exact ih post (by omega) l hl
  exact H bs.length bs (le_refl _)

/- ## Conservation and the chunking-invariance of `readline` -/

theorem readline_conserves {s : FramerState} {line : List Nat}
    {s' : FramerState} (h : readline s = some (line, s')) :
    line ++ streamOf s' = streamOf s ∧ line ≠ [] := by
  have hb := readline_some h
  refine ⟨(splitAtNl_eq_append hb).symm, splitAtNl_pre_ne_nil hb⟩

theorem readLines_eq_linesOf : ∀ (fuel : Nat) (s : FramerState),
    (streamOf s).length ≤ fuel → readLines fuel s = linesOf (streamOf s) := by
  intro fuel
  induction fuel with
  | zero =>
    intro s hs
    have : streamOf s = [] :=
      List.length_eq_zero.mp (Nat.le_zero.mp hs)
    rw [readLines, linesOf_none (by simp [this, splitAtNl])]
  | succ fuel ih =>
    intro s hs
    cases hr : readline s with
    | none =>
      rw [readLines, hr, linesOf_none (readline_none hr)]
    | some ls =>
      obtain ⟨line, s'⟩ := ls
      have hb := readline_some hr
      obtain ⟨hcons, hne⟩ := readline_conserves hr
      have hlen : (streamOf s').length < (streamOf s).length := by
        rw [← hcons]
        simp [List.length_append]
        exact List.length_pos.mpr hne
      calc readLines (fuel + 1) s = line :: readLines fuel s' := by
            rw [readLines, hr]
        _ = line :: linesOf (streamOf s') := by
            rw [ih s' (by omega)]
        _ = linesOf (streamOf s) := (linesOf_cons hb).symm

/-- C2: for every input byte sequence and every partition of it into chunks
delivered by the read primitive, repeated calls to `readline` yield exactly
the same sequence of lines as when the whole sequence is delivered as a
single chunk; in particular no partial data retained in the buffer is
dropped between calls. -/
theorem C2_readline_chunk_invariance (cs : List (List Nat)) :
    readLines cs.flatten.length ⟨[], cs⟩
      = readLines cs.flatten.length ⟨[], [cs.flatten]⟩ := by
  have h1 : streamOf ⟨[], cs⟩ = cs.flatten := by simp [streamOf]
  have h2 : streamOf ⟨[], [cs.flatten]⟩ = cs.flatten := by simp [streamOf]
  rw [readLines_eq_linesOf _ _ (by rw [h1]),
    readLines_eq_linesOf _ _ (by rw [h2]), h1, h2]

/-- C10: every byte string returned by `readline` is non-empty, ends with a
newline byte, and contains no newline byte in any other position: each
returned value is exactly one complete line including its terminator. -/
theorem C10_readline_single_complete_line (s : FramerState)
    (line : List Nat) (s' : FramerState) (h : readline s = some (line, s')) :
    line ≠ [] ∧ ∃ p, line = p ++ [10] ∧ 10 ∉ p := by
  have hb := readline_some h
  exact ⟨splitAtNl_pre_ne_nil hb, splitAtNl_shape hb⟩

/-- Witness for C10 at a concrete two-chunk stream. -/
theorem C10_readline_single_complete_line_witness :
    [65, 66, 10] ≠ [] ∧ ∃ p, [65, 66, 10] = p ++ [10] ∧ 10 ∉ p :=
  C10_readline_single_complete_line ⟨[], [[65], [66, 10]]⟩ [65, 66, 10]
    ⟨[], []⟩ (by decide)

/- ## The command/acknowledgment exchange of `_serial_write_cmd` -/

/-- Python `needle in hay` on byte strings: exact byte-substring test. -/
def containsSub (hay needle : List Nat) : Bool :=
  needle.isPrefixOf hay ||
    match hay with
    | [] => false
    | _ :: t => containsSub t needle

/-- `polling_loops = 50`: number of times `_serial_write_cmd` polls the
serial output for an ACK after sending a command. -/
def polling_loops : Nat := 50

/-- The polling loop of `_serial_write_cmd`
(`for i in range(polling_loops): line = readline(); line = line[:-1]; ...`):
read a line, strip its final byte, succeed with it at the first substring
hit; after the last budgeted read return failure together with that last
stripped line.  `none` models the loop blocking because the device stops
producing lines. -/
def pollAck (expect : List Nat) : Nat → FramerState →
    Option (Bool × List Nat × FramerState)
  | 0, _ => none
  | n + 1, s =>
    match readline s with
    | none => none
    | some (line, s') =>
      let stripped := line.dropLast
      if containsSub stripped expect then some (true, stripped, s')
      else if n = 0 then some (false, stripped, s')
      else pollAck expect n s'

/-- `STM_AGPS._serial_write_cmd`: write `str(cmd) + CRLF` (the write does
not change what the device will emit, so it leaves the framer state alone),
then poll up to `polling_loops` lines for the expected substring; with a
falsy `expect` (absent or empty) the success condition is a line containing
the echoed serialized command text itself. -/
def serialWriteCmd (cmd : List Nat) (expect : Option (List Nat))
    (s : FramerState) : Option (Bool × List Nat × FramerState) :=
  match expect with
  | some e =>
    if e = [] then pollAck cmd polling_loops s else pollAck e polling_loops s
  | none => pollAck cmd polling_loops s

theorem readline_total {s : FramerState} (h : linesOf (streamOf s) ≠ []) :
    ∃ line s', readline s = some (line, s') := by
  cases hr : readline s with
  | none => exact absurd (linesOf_none (readline_none hr)) h
  | some ls =>
    obtain ⟨line, s'⟩ := ls
    exact ⟨line, s', rfl⟩

theorem readline_lines {s : FramerState} {line : List Nat} {s' : FramerState}
    (h : readline s = some (line, s')) :
    linesOf (streamOf s) = line :: linesOf (streamOf s') :=
  linesOf_cons (readline_some h)

theorem pollAck_success : ∀ (i : Nat) (n : Nat) (s : FramerState)
    (e : List Nat), i < n → i < (linesOf (streamOf s)).length →
    containsSub ((linesOf (streamOf s)).getD i []).dropLast e = true →
    (∀ j, j < i →
      containsSub ((linesOf (streamOf s)).getD j []).dropLast e = false) →
    ∃ s', pollAck e n s
        = some (true, ((linesOf (streamOf s)).getD i []).dropLast, s')
      ∧ linesOf (streamOf s') = (linesOf (streamOf s)).drop (i + 1) := by
  intro i
  induction i with
  | zero =>
    intro n s e hn hlen hc _
    obtain ⟨m, rfl⟩ : ∃ m, n = m + 1 := ⟨n - 1, by omega⟩
    have hne : linesOf (streamOf s) ≠ [] := by
      intro h0
      rw [h0] at hlen
      simp at hlen
    obtain ⟨line, s', hr⟩ := readline_total hne
    have hl := readline_lines hr
    have hget : (linesOf (streamOf s)).getD 0 [] = line := by rw [hl]; rfl
    rw [hget] at hc ⊢
    refine ⟨s', ?_, ?_⟩
    · simp only [pollAck, hr, hc]
      simp
    · rw [hl]
      simp
  | succ i ih =>
    intro n s e hn hlen hc hprev
    obtain ⟨m, rfl⟩ : ∃ m, n = m + 1 := ⟨n - 1, by omega⟩
    have hne : linesOf (streamOf s) ≠ [] := by
      intro h0
      rw [h0] at hlen
      simp at hlen
    obtain ⟨line, s', hr⟩ := readline_total hne
    have hl := readline_lines hr
    have h0 : containsSub line.dropLast e = false := by
      have := hprev 0 (by omega)
      rw [hl] at this
      simpa using this
    have hm : i < m := by omega
    have hlen' : i < (linesOf (streamOf s')).length := by
      rw [hl] at hlen
      simpa using hlen
    have hc' : containsSub ((linesOf (streamOf s')).getD i []).dropLast e
        = true := by
      rw [hl] at hc
      simpa using hc
    have hprev' : ∀ j, j < i →
        containsSub ((linesOf (streamOf s')).getD j []).dropLast e
          = false := by
      intro j hj
      have := hprev (j + 1) (by omega)
      rw [hl] at this
      simpa using this
    obtain ⟨s'', hres, hdrop⟩ := ih m s' e hm hlen' hc' hprev'
    have e1 : (linesOf (streamOf s)).getD (i + 1) []
        = (linesOf (streamOf s')).getD i [] := by
      rw [hl]
      simp
    refine ⟨s'', ?_, ?_⟩
    · rw [e1]
      have hm0 : m ≠ 0 := by omega
      simp only [pollAck, hr, h0, hm0]
      simpa using hres
    · rw [hl]
      simpa using hdrop

theorem pollAck_exhaust : ∀ (n : Nat) (s : FramerState) (e : List Nat),
    1 ≤ n → n ≤ (linesOf (streamOf s)).length →
    (∀ j, j < n →
      containsSub ((linesOf (streamOf s)).getD j []).dropLast e = false) →
    ∃ s', pollAck e n s
        = some (false, ((linesOf (streamOf s)).getD (n - 1) []).dropLast, s')
      ∧ linesOf (streamOf s') = (linesOf (streamOf s)).drop n := by
  intro n
  induction n with
  | zero => intro s e h1; exact absurd h1 (by omega)
  | succ n ih =>
    intro s e _ hlen hall
    have hne : linesOf (streamOf s) ≠ [] := by
      intro h0
      rw [h0] at hlen
      simp at hlen
    obtain ⟨line, s', hr⟩ := readline_total hne
    have hl := readline_lines hr
    have h0 : containsSub line.dropLast e = false := by
      have := hall 0 (by omega)
      rw [hl] at this
      simpa using this
    cases n with
    | zero =>
      have hget : (linesOf (streamOf s)).getD 0 [] = line := by rw [hl]; rfl
      refine ⟨s', ?_, ?_⟩
      · simp only [Nat.sub_self, hget]
        simp only [pollAck, hr, h0]
        simp
      · rw [hl]
        simp
    | succ n =>
      have hlen' : n + 1 ≤ (linesOf (streamOf s')).length := by
        rw [hl] at hlen
        simpa using hlen
      have hall' : ∀ j, j < n + 1 →
          containsSub ((linesOf (streamOf s')).getD j []).dropLast e
            = false := by
        intro j hj
        have := hall (j + 1) (by omega)
        rw [hl] at this
        simpa using this
      obtain ⟨s'', hres, hdrop⟩ := ih s' e (by omega) hlen' hall'
      have e1 : (linesOf (streamOf s)).getD (n + 1) []
          = (linesOf (streamOf s')).getD n [] := by
        rw [hl]
        simp
      refine ⟨s'', ?_, ?_⟩
      · simp only [Nat.add_sub_cancel] at hres ⊢
        rw [e1]
        simp only [pollAck, hr, h0]
        simpa using hres
      · rw [hl]
        simpa using hdrop

theorem pollAck_consumes : ∀ (n : Nat) (s : FramerState) (e : List Nat)
    {b : Bool} {l : List Nat} {s' : FramerState},
    pollAck e n s = some (b, l, s') →
    ∃ k, 1 ≤ k ∧ k ≤ n
      ∧ linesOf (streamOf s') = (linesOf (streamOf s)).drop k := by
  intro n
  induction n with
  | zero => intro s e b l s' h; simp [pollAck] at h
  | succ n ih =>
    intro s e b l s' h
    cases hr : readline s with
    | none =>
      rw [pollAck, hr] at h
      simp at h
    | some ls =>
      obtain ⟨line, s1⟩ := ls
      have hl := readline_lines hr
      rw [pollAck, hr] at h
      cases hc : containsSub line.dropLast e with
      | true =>
        simp [hc] at h
        refine ⟨1, by omega, by omega, ?_⟩
        rw [hl, ← h.2.2]
        simp
      | false =>
        by_cases hn : n = 0
        · subst hn
          simp [hc] at h
          refine ⟨1, by omega, by omega, ?_⟩
          rw [hl, ← h.2.2]
          simp
        · simp [hc, hn] at h
          obtain ⟨k, hk1, hk2, hkd⟩ := ih s1 e h
          refine ⟨k + 1, by omega, by omega, ?_⟩
          rw [hl, List.drop_succ_cons, hkd]

theorem pollAck_total : ∀ (n : Nat) (s : FramerState) (e : List Nat),
    1 ≤ n → n ≤ (linesOf (streamOf s)).length →
    ∃ r, pollAck e n s = some r := by
  intro n
  induction n with
  | zero => intro s e h1; exact absurd h1 (by omega)
  | succ n ih =>
    intro s e _ hlen
    have hne : linesOf (streamOf s) ≠ [] := by
      intro h0
      rw [h0] at hlen
      simp at hlen
    obtain ⟨line, s', hr⟩ := readline_total hne
    have hl := readline_lines hr
    cases hc : containsSub line.dropLast e with
    | true =>
      refine ⟨(true, line.dropLast, s'), ?_⟩
      rw [pollAck, hr]
      simp [hc]
    | false =>
      by_cases hn : n = 0
      · subst hn
        refine ⟨(false, line.dropLast, s'), ?_⟩
        rw [pollAck, hr]
        simp [hc]
      · have hlen' : n ≤ (linesOf (streamOf s')).length := by
          rw [hl] at hlen
          simp at hlen
          omega
        obtain ⟨r, hres⟩ := ih s' e (by omega) hlen'
        refine ⟨r, ?_⟩
        rw [pollAck, hr]
        simp [hc, hn, hres]

/-- C1: for every command exchange with a (non-empty, hence truthy)
expected substring, `_serial_write_cmd` reads at most 50 lines after
writing the command (third conjunct: any completed exchange consumes
between 1 and 50 of the stream's lines); it returns success paired with the
first line read (terminator stripped) that contains the expected substring
as a byte substring (first conjunct), and if none of the 50 lines contains
it, it returns failure paired with the last (50th) line read (second
conjunct). -/
theorem C1_serial_write_cmd_ack_protocol (cmd e : List Nat) (s : FramerState)
    (he : e ≠ []) :
    (∀ i, i < 50 → i < (linesOf (streamOf s)).length →
      containsSub ((linesOf (streamOf s)).getD i []).dropLast e = true →
      (∀ j, j < i →
        containsSub ((linesOf (streamOf s)).getD j []).dropLast e = false) →
      ∃ s', serialWriteCmd cmd (some e) s
          = some (true, ((linesOf (streamOf s)).getD i []).dropLast, s')
        ∧ linesOf (streamOf s') = (linesOf (streamOf s)).drop (i + 1))
    ∧ (50 ≤ (linesOf (streamOf s)).length →
      (∀ j, j < 50 →
        containsSub ((linesOf (streamOf s)).getD j []).dropLast e = false) →
      ∃ s', serialWriteCmd cmd (some e) s
          = some (false, ((linesOf (streamOf s)).getD 49 []).dropLast, s')
        ∧ linesOf (streamOf s') = (linesOf (streamOf s)).drop 50)
    ∧ (∀ b l s', serialWriteCmd cmd (some e) s = some (b, l, s') →
      ∃ k, 1 ≤ k ∧ k ≤ 50
        ∧ linesOf (streamOf s') = (linesOf (streamOf s)).drop k) := by
  have hsw : serialWriteCmd cmd (some e) s = pollAck e 50 s := by
    simp [serialWriteCmd, he, polling_loops]
  refine ⟨?_, ?_, ?_⟩
  · intro i h50 hlen hc hprev
    rw [hsw]
    exact pollAck_success i 50 s e h50 hlen hc hprev
  · intro hlen hall
    rw [hsw]
    have h := pollAck_exhaust 50 s e (by omega) hlen hall
    have h49 : (50 : Nat) - 1 = 49 := rfl
    rw [h49] at h
    exact h
  · intro b l s' hres
    rw [hsw] at hres
    exact pollAck_consumes 50 s e hres

/-- Witness for C1: on a concrete three-line stream whose second line is
the first containing the ack substring, the exchange succeeds with that
stripped line and consumes exactly two lines. -/
theorem C1_serial_write_cmd_ack_protocol_witness :
    ∃ s', serialWriteCmd (bytes "CMD") (some (bytes "OK"))
          ⟨[], [bytes "no\nyes OK\nrest\n"]⟩
        = some (true,
            ((linesOf (streamOf ⟨[], [bytes "no\nyes OK\nrest\n"]⟩)).getD 1
              []).dropLast, s')
      ∧ linesOf (streamOf s')
        = (linesOf (streamOf ⟨[], [bytes "no\nyes OK\nrest\n"]⟩)).drop 2 :=
  (C1_serial_write_cmd_ack_protocol (bytes "CMD") (bytes "OK")
      ⟨[], [bytes "no\nyes OK\nrest\n"]⟩ (by decide)).1 1
    (by decide) (by decide) (by decide) (by decide)

/- ## The dump-to-file protocol of `_store_to_file` -/

/-- XOR checksum over an NMEA payload. -/
def nmeaChecksum (payload : List Nat) : Nat := payload.foldl Nat.xor 0

/-- One uppercase hexadecimal digit as an ASCII byte. -/
def hexDigit (n : Nat) : Nat := if n < 10 then 48 + n else 55 + n

/-- Serialization `str(pynmea2.GGA(chr(80), name, fields))` used by the
callers of `_serial_write_cmd` (pynmea2 is an external library): the
proprietary sentence `$P<name>,f1,...,fn*HH` with the standard NMEA xor
checksum over the bytes between `$` and `*`. -/
def renderGGA (name : List Nat) (fields : List (List Nat)) : List Nat :=
  let payload := 80 :: (name ++ (fields.map fun f => 44 :: f).flatten)
  let ck := nmeaChecksum payload % 256
  36 :: (payload ++ [42, hexDigit (ck / 16), hexDigit (ck % 16)])

/-- Outcome of `_store_to_file`: the initial ack poll or the collection
loop blocks on a silent device; the ack poll fails and the
`LoggedException` is raised; or the transfer completes, with the lines
written to the file and the final framer state. -/
inductive StoreRes
  | blocked
  | failed
  | done (written : List (List Nat)) (s : FramerState)
deriving DecidableEq, Repr

/-- The collection loop of `_store_to_file`: starting from the line that
acknowledged the dump command, return as soon as the line contains the
dump command text (the end-of-transfer sentinel, written by the device
after the data); otherwise append `line + b'\n'` to the file when the line
starts with the data-line prefix, then read and strip the next line.
`fuel` bounds the iterations (each one consumes a line of the stream);
`none` models the loop blocking on `readline`. -/
def storeLoop (cmd ack : List Nat) : Nat → List Nat → FramerState →
    List (List Nat) → Option (List (List Nat) × FramerState)
  | 0, _, _, _ => none
  | fuel + 1, line, s, out =>
    if containsSub line cmd then some (out, s)
    else
      let out' := if ack.isPrefixOf line then out ++ [line ++ [10]] else out
      match readline s with
      | none => none
      | some (l, s') => storeLoop cmd ack fuel l.dropLast s' out'

/-- `STM_AGPS._store_to_file`: send the serialized dump command expecting
`ack`; raise when the ack is not found within the poll budget; otherwise
run the collection loop starting from the acknowledged line. -/
def storeToFile (cmd ack : List Nat) (fuel : Nat) (s : FramerState) :
    StoreRes :=
  match serialWriteCmd (renderGGA cmd []) (some ack) s with
  | none => StoreRes.blocked
  | some (false, _, _) => StoreRes.failed
  | some (true, line, s') =>
    match storeLoop cmd ack fuel line s' [] with
    | none => StoreRes.blocked
    | some (out, s'') => StoreRes.done out s''

theorem containsSub_of_isPrefixOf {l p : List Nat}
    (h : p.isPrefixOf l = true) : containsSub l p = true := by
  rw [containsSub.eq_def, h]
  rfl

theorem map_dropLast_nl : ∀ {ds : List (List Nat)},
    (∀ d ∈ ds, ∃ p, d = p ++ [10] ∧ 10 ∉ p) →
    ds.map (fun d => d.dropLast ++ [10]) = ds := by
  intro ds
  induction ds with
  | nil => intro _; rfl
  | cons d t ih =>
    intro h
    obtain ⟨p, hp, _⟩ := h d (by simp)
    simp only [List.map_cons]
    rw [ih fun x hx => h x (by simp [hx])]
    rw [hp]
    simp

theorem storeLoop_spec : ∀ (ds : List (List Nat)) (cmd ack line : List Nat)
    (s : FramerState) (out : List (List Nat)) (sentinel : List Nat)
    (rest : List (List Nat)) (fuel : Nat),
    linesOf (streamOf s) = ds ++ sentinel :: rest →
    containsSub line cmd = false →
    ack.isPrefixOf line = true →
    (∀ d ∈ ds, ack.isPrefixOf d.dropLast = true
      ∧ containsSub d.dropLast cmd = false) →
    containsSub sentinel.dropLast cmd = true →
    ds.length + 2 ≤ fuel →
    ∃ s', storeLoop cmd ack fuel line s out
        = some (out ++ (line ++ [10]) :: ds.map (fun d => d.dropLast ++ [10]),
            s')
      ∧ linesOf (streamOf s') = rest := by
  intro ds
  induction ds with
  | nil =>
    intro cmd ack line s out sentinel rest fuel hls hnc hpre _ hsent hfuel
    obtain ⟨f, rfl⟩ : ∃ f, fuel = f + 1 := ⟨fuel - 1, by omega⟩
    obtain ⟨g, rfl⟩ : ∃ g, f = g + 1 := ⟨f - 1, by omega⟩
    have hne : linesOf (streamOf s) ≠ [] := by rw [hls]; simp
    obtain ⟨l1, s1, hr⟩ := readline_total hne
    have hl := readline_lines hr
    rw [hls] at hl
    simp only [List.nil_append, List.cons.injEq] at hl
    obtain ⟨hsl, hrest⟩ := hl
    refine ⟨s1, ?_, by rw [← hrest]⟩
    rw [storeLoop]
    simp only [hnc, Bool.false_eq_true, if_false, hpre, if_true, hr]
    rw [storeLoop]
    rw [hsl] at hsent
    simp [hsent]
  | cons d ds ih =>
    intro cmd ack line s out sentinel rest fuel hls hnc hpre hds hsent hfuel
    obtain ⟨f, rfl⟩ : ∃ f, fuel = f + 1 := ⟨fuel - 1, by omega⟩
    have hne : linesOf (streamOf s) ≠ [] := by rw [hls]; simp
    obtain ⟨l1, s1, hr⟩ := readline_total hne
    have hl := readline_lines hr
    rw [hls] at hl
    simp only [List.cons_append, List.cons.injEq] at hl
    obtain ⟨hdl, hrest⟩ := hl
    have hd := hds d (by simp)
    obtain ⟨s', hres, hfin⟩ := ih cmd ack d.dropLast s1
      (out ++ [line ++ [10]]) sentinel rest f (by rw [← hrest]) hd.2 hd.1
      (fun x hx => hds x (by simp [hx])) hsent
      (by simp only [List.length_cons] at hfuel; omega)
    refine ⟨s', ?_, hfin⟩
    rw [storeLoop]
    simp only [hnc, Bool.false_eq_true, if_false, hpre, if_true, hr]
    rw [← hdl, hres]
    simp

/-- C3 counterexample: two concrete device traces of the claimed shape on
which `_store_to_file` does not write the data lines and stop at the
sentinel.  First: one data line that starts with the data-line prefix but
also contains the dump command text is itself treated as the sentinel, so
the transfer ends with an empty file and the real sentinel still unread.
Second: with zero data lines the initial ack poll never sees the prefix,
so the call never returns (models: blocks on `readline`). -/
theorem C3_store_to_file_counterexample :
    storeToFile (bytes "STMDUMPEPHEMS") (bytes "$PSTMEPHEM") 10
        ⟨[], [bytes "$PSTMEPHEM STMDUMPEPHEMS\nXSTMDUMPEPHEMSY\n"]⟩
      = StoreRes.done [] ⟨bytes "XSTMDUMPEPHEMSY\n", []⟩
    ∧ storeToFile (bytes "STMDUMPEPHEMS") (bytes "$PSTMEPHEM") 10
        ⟨[], [bytes "XSTMDUMPEPHEMSY\n"]⟩
      = StoreRes.blocked := by
  constructor
  · decide
  · decide

/-- C3 (amended): for every device trace that, after the dump command,
emits `N ≥ 1` lines starting with the data-line prefix *and not containing
the dump command text*, followed by one line containing the dump command
text, `_store_to_file` writes exactly those `N` lines to the target file
(each terminated with a newline, i.e. verbatim) and returns upon reading
the sentinel, writing and reading nothing after it. -/
theorem C3_store_to_file_amended (cmd ack : List Nat) (s : FramerState)
    (d0 : List Nat) (ds : List (List Nat)) (sentinel : List Nat)
    (rest : List (List Nat)) (fuel : Nat) (hack : ack ≠ [])
    (hls : linesOf (streamOf s) = (d0 :: ds) ++ sentinel :: rest)
    (hdata : ∀ d ∈ d0 :: ds, ack.isPrefixOf d.dropLast = true
      ∧ containsSub d.dropLast cmd = false)
    (hsent : containsSub sentinel.dropLast cmd = true)
    (hfuel : ds.length + 2 ≤ fuel) :
    ∃ s', storeToFile cmd ack fuel s = StoreRes.done (d0 :: ds) s'
      ∧ linesOf (streamOf s') = rest := by
  have hsw : serialWriteCmd (renderGGA cmd []) (some ack) s
      = pollAck ack 50 s := by
    simp [serialWriteCmd, hack, polling_loops]
  have h0lt : 0 < (linesOf (streamOf s)).length := by rw [hls]; simp
  have hget0 : (linesOf (streamOf s)).getD 0 [] = d0 := by rw [hls]; rfl
  have hc0 : containsSub ((linesOf (streamOf s)).getD 0 []).dropLast ack
      = true := by
    rw [hget0]
    exact containsSub_of_isPrefixOf (hdata d0 (by simp)).1
  obtain ⟨s1, hpoll, hdrop⟩ := pollAck_success 0 50 s ack (by omega) h0lt hc0
    (by intro j hj; omega)
  have hl1 : linesOf (streamOf s1) = ds ++ sentinel :: rest := by
    rw [hdrop, hls]
    simp
  have hd0 := hdata d0 (by simp)
  obtain ⟨s', hloop, hfin⟩ := storeLoop_spec ds cmd ack d0.dropLast s1 []
    sentinel rest fuel hl1 hd0.2 hd0.1 (fun x hx => hdata x (by simp [hx]))
    hsent hfuel
  have hshape : ∀ d ∈ d0 :: ds, ∃ p, d = p ++ [10] ∧ 10 ∉ p := by
    intro d hd
    have hmem : d ∈ linesOf (streamOf s) := by
      rw [hls]
      simp only [List.cons_append, List.mem_cons, List.mem_append] at hd ⊢
      tauto
    exact linesOf_mem_shape d hmem
  refine ⟨s', ?_, hfin⟩
  have hmap : (d0.dropLast ++ [10]) :: ds.map (fun d => d.dropLast ++ [10])
      = d0 :: ds := by
    have hm := map_dropLast_nl hshape
    simp only [List.map_cons] at hm
    exact hm
  rw [hget0] at hpoll
  simp only [storeToFile, hsw, hpoll, hloop, List.nil_append, hmap]

/-- Witness for the amended C3 at a concrete trace with two data lines, a
sentinel, and a trailing unread line. -/
theorem C3_store_to_file_amended_witness :
    ∃ s', storeToFile (bytes "STMDUMPEPHEMS") (bytes "$PSTMEPHEM") 3
        ⟨[], [bytes "$PSTMEPHEM,1\n$PSTMEPHEM,2\nXSTMDUMPEPHEMSY\ntail\n"]⟩
      = StoreRes.done [bytes "$PSTMEPHEM,1\n", bytes "$PSTMEPHEM,2\n"] s'
      ∧ linesOf (streamOf s') = [bytes "tail\n"] :=
  C3_store_to_file_amended (bytes "STMDUMPEPHEMS") (bytes "$PSTMEPHEM")
    ⟨[], [bytes "$PSTMEPHEM,1\n$PSTMEPHEM,2\nXSTMDUMPEPHEMSY\ntail\n"]⟩
    (bytes "$PSTMEPHEM,1\n") [bytes "$PSTMEPHEM,2\n"]
    (bytes "XSTMDUMPEPHEMSY\n") [bytes "tail\n"] 3
    (by decide) (by decide) (by decide) (by decide) (by decide)

/- ## Assistance-data loading: `load` and `_load_from_file` -/

/-- The device seen from `STM_AGPS`: the framer state plus a log of every
command exchange issued to `_serial_write_cmd`, as the pair of the command
value passed and the expected ack substring. -/
structure Dev where
  fr : FramerState
  log : List (List Nat × Option (List Nat))
deriving DecidableEq, Repr

/-- Result of an operation on the device: normal return, a `readline`
that blocks forever, or a raised `LoggedException`.  The carried `Dev`
keeps the log of the exchanges issued up to that point. -/
inductive StepRes (α : Type)
  | ok (a : α) (d : Dev)
  | blocked (d : Dev)
  | raised (d : Dev)
deriving DecidableEq, Repr

/-- Sequencing of device operations: exceptions and blocking propagate. -/
def StepRes.andThen {α β : Type} (r : StepRes α) (f : α → Dev → StepRes β) :
    StepRes β :=
  match r with
  | .ok a d => f a d
  | .blocked d => .blocked d
  | .raised d => .raised d

/-- One `_serial_write_cmd` call, recorded in the log. -/
def sendCmd (cmd : List Nat) (expect : Option (List Nat)) (d : Dev) :
    StepRes (Bool × List Nat) :=
  let log' := d.log ++ [(cmd, expect)]
  match serialWriteCmd cmd expect d.fr with
  | none => StepRes.blocked ⟨d.fr, log'⟩
  | some (b, l, fr') => StepRes.ok (b, l) ⟨fr', log'⟩

/-- `STM_AGPS.reset`: the serialized `$PSTMGPSRESET` sentence with no ack
expectation (the result is ignored), followed by a fixed pause. -/
def resetCmd (d : Dev) : StepRes Unit :=
  (sendCmd (renderGGA (bytes "STMGPSRESET") []) none d).andThen
    fun _ d => StepRes.ok () d

/-- `STM_AGPS.set_time`: reset, then the `$PSTMINITTIME` sentence carrying
the six current-UTC fields, expecting `STMINITTIMEOK`; a missing ack
raises. -/
def setTime (tf : List (List Nat)) (d : Dev) : StepRes Unit :=
  (resetCmd d).andThen fun _ d =>
    (sendCmd (renderGGA (bytes "STMINITTIME") tf)
        (some (bytes "STMINITTIMEOK")) d).andThen fun rl d =>
      if rl.1 then StepRes.ok () d else StepRes.raised d

/-- Python `bytes.strip()` whitespace predicate. -/
def isPyWs (b : Nat) : Bool :=
  b = 32 || b = 9 || b = 10 || b = 13 || b = 11 || b = 12

/-- Python `line.strip()` on a byte string. -/
def stripWs (l : List Nat) : List Nat :=
  ((l.dropWhile isPyWs).reverse.dropWhile isPyWs).reverse

/-- `STM_AGPS._load_from_file`: for every line of the file, issue the
stripped line as a command expecting `ack`; the per-exchange result is
discarded. -/
def loadFromFile (ack : List Nat) : List (List Nat) → Dev → StepRes Unit
  | [], d => StepRes.ok () d
  | l :: rest, d =>
    (sendCmd (stripWs l) (some ack) d).andThen fun _ d =>
      loadFromFile ack rest d

/-- `STM_AGPS.load`: check that both assistance files exist (`none` models
a missing file), returning immediately otherwise; then reset, set the
time, and replay the almanac and ephemeris files. -/
def load (alm eph : Option (List (List Nat))) (tf : List (List Nat))
    (d : Dev) : StepRes Unit :=
  match alm with
  | none => StepRes.ok () d
  | some almLines =>
    match eph with
    | none => StepRes.ok () d
    | some ephLines =>
      (resetCmd d).andThen fun _ d =>
        (setTime tf d).andThen fun _ d =>
          (loadFromFile (bytes "$PSTMALMANACOK") almLines d).andThen
            fun _ d => loadFromFile (bytes "$PSTMEPHEMOK") ephLines d

/-- C7: if at least one of the two assistance files is missing, `load`
returns without issuing any device command: the returned device state is
exactly the input one, so no reset, no time set, and no line upload was
issued for either file, including the one that exists. -/
theorem C7_load_missing_file_skips_all (alm eph : Option (List (List Nat)))
    (tf : List (List Nat)) (d : Dev) (h : alm = none ∨ eph = none) :
    load alm eph tf d = StepRes.ok () d := by
  rcases h with h | h
  · subst h; rfl
  · subst h; cases alm <;> rfl

/-- Witness for C7: an existing (empty) ephemeris file and a missing
almanac file. -/
theorem C7_load_missing_file_skips_all_witness :
    load none (some [bytes "x\n"]) [] ⟨⟨[], []⟩, []⟩
      = StepRes.ok () ⟨⟨[], []⟩, []⟩ :=
  C7_load_missing_file_skips_all none (some [bytes "x\n"]) [] ⟨⟨[], []⟩, []⟩
    (Or.inl rfl)

/-- C8: `_load_from_file` issues exactly one command exchange per file
line (trimmed, with the configured ack substring) and discards each
exchange's result, so a failed exchange never prevents the remaining
lines' exchanges from being issued (first conjunct: whenever the device
keeps producing lines, the call returns normally with the log extended by
exactly one entry per line, in order, regardless of each exchange's
success); and `_load_from_file` never raises on an ack miss (second
conjunct). -/
theorem C8_load_from_file_replays_every_line (ack : List Nat)
    (hack : ack ≠ []) (ls : List (List Nat)) (d : Dev)
    (hlen : 50 * ls.length ≤ (linesOf (streamOf d.fr)).length) :
    (∃ d', loadFromFile ack ls d = StepRes.ok () d'
      ∧ d'.log = d.log ++ ls.map fun l => (stripWs l, some ack))
    ∧ ∀ d', loadFromFile ack ls d ≠ StepRes.raised d' := by
  induction ls generalizing d with
  | nil =>
    refine ⟨⟨d, rfl, by simp⟩, ?_⟩
    intro d' h
    simp [loadFromFile] at h
  | cons l rest ih =>
    have h50 : (50 : Nat) ≤ (linesOf (streamOf d.fr)).length := by
      simp only [List.length_cons] at hlen
      omega
    have hsw : serialWriteCmd (stripWs l) (some ack) d.fr
        = pollAck ack 50 d.fr := by
      simp [serialWriteCmd, hack, polling_loops]
    obtain ⟨r, hr⟩ := pollAck_total 50 d.fr ack (by omega) h50
    obtain ⟨b, l', fr'⟩ := r
    obtain ⟨k, hk1, hk2, hkd⟩ := pollAck_consumes 50 d.fr ack hr
    have hsend : sendCmd (stripWs l) (some ack) d
        = StepRes.ok (b, l') ⟨fr', d.log ++ [(stripWs l, some ack)]⟩ := by
      simp [sendCmd, hsw, hr]
    have hlen' : 50 * rest.length
        ≤ (linesOf (streamOf fr')).length := by
      have hdl : (linesOf (streamOf fr')).length
          = (linesOf (streamOf d.fr)).length - k := by
        rw [hkd]
        simp
      simp only [List.length_cons] at hlen
      omega
    obtain ⟨⟨d', hok, hlog⟩, hnr⟩ :=
      ih ⟨fr', d.log ++ [(stripWs l, some ack)]⟩ hlen'
    constructor
    · refine ⟨d', ?_, ?_⟩
      · simp [loadFromFile, hsend, StepRes.andThen, hok]
      · rw [hlog]
        simp
    · intro d'' hcontra
      simp [loadFromFile, hsend, StepRes.andThen] at hcontra
      exact hnr d'' hcontra

set_option maxRecDepth 8000 in
/-- Witness for C8: a two-line file against a device that never acks
(every device line is empty), yet both exchanges are issued and the call
returns normally. -/
theorem C8_load_from_file_replays_every_line_witness :
    ∃ d', loadFromFile (bytes "$PSTMALMANACOK")
        [bytes "$PSTMALMANAC,1\n", bytes "$PSTMALMANAC,2\n"]
        ⟨⟨[], List.replicate 100 [10]⟩, []⟩
      = StepRes.ok () d'
      ∧ d'.log = [] ++ [bytes "$PSTMALMANAC,1\n",
          bytes "$PSTMALMANAC,2\n"].map
            fun l => (stripWs l, some (bytes "$PSTMALMANACOK")) :=
  (C8_load_from_file_replays_every_line (bytes "$PSTMALMANACOK") (by decide)
    [bytes "$PSTMALMANAC,1\n", bytes "$PSTMALMANAC,2\n"]
    ⟨⟨[], List.replicate 100 [10]⟩, []⟩ (by decide)).1

/- ## The `_run_loop` lifecycle and location filter of `GnssShare` -/

/-- `GNSS_PREFIXES` of main.py: the NMEA talker prefixes whose sentences
are forwarded to clients. -/
def GNSS_PREFIXES : List (List Nat) :=
  [bytes "$GAGGA", bytes "$GBGGA", bytes "$BDGGA",
    bytes "$GLGGA", bytes "$GNGGA", bytes "$GPGGA"]

/-- Python `line.split(b',')[0]`: the leading comma-delimited field. -/
def leadingField (l : List Nat) : List Nat := l.takeWhile (· != 44)

/-- State of `_run_loop` across iterations: the open device session
(`_active_driver`, tagged with an identifier so that reuse versus
reopening is expressible), a counter supplying fresh session identifiers,
and the shared `_location`. -/
structure LoopState where
  active : Option Nat
  nextId : Nat
  location : List Nat
deriving DecidableEq, Repr

/-- One iteration of `GnssShare._run_loop`.  Inputs of the iteration: the
current size of `_open_connections` (mutated concurrently by the
connection handlers) and the line `readline` returns (consulted only when
a client is connected).  With clients: open a session if none is open,
then update `_location` when the line's leading field is a recognized
prefix.  Without clients: close and discard any open session. -/
def runLoopStep (conns : Nat) (line : List Nat) (st : LoopState) :
    LoopState :=
  if 0 < conns then
    let st1 := if st.active.isNone
      then { st with active := some st.nextId, nextId := st.nextId + 1 }
      else st
    if leadingField line ∈ GNSS_PREFIXES then { st1 with location := line }
    else st1
  else
    if st.active.isSome then { st with active := none } else st

/-- The iterated loop over a finite schedule of iteration inputs. -/
def runLoop (inputs : List (Nat × List Nat)) (st : LoopState) : LoopState :=
  inputs.foldl (fun st i => runLoopStep i.1 i.2 st) st

theorem runLoopStep_active (c : Nat) (l : List Nat) (st : LoopState) :
    (runLoopStep c l st).active
      = if 0 < c then (if st.active.isNone then some st.nextId
          else st.active)
        else none := by
  unfold runLoopStep
  by_cases hc : 0 < c
  · cases ha : st.active <;>
      by_cases hm : leadingField l ∈ GNSS_PREFIXES <;> simp [hc, ha, hm]
  · cases ha : st.active <;> simp [hc, ha]

theorem runLoopStep_nextId (c : Nat) (l : List Nat) (st : LoopState) :
    (runLoopStep c l st).nextId
      = if 0 < c ∧ st.active.isNone then st.nextId + 1 else st.nextId := by
  unfold runLoopStep
  by_cases hc : 0 < c
  · cases ha : st.active <;>
      by_cases hm : leadingField l ∈ GNSS_PREFIXES <;> simp [hc, ha, hm]
  · cases ha : st.active <;> simp [hc, ha]

theorem runLoopStep_location (c : Nat) (l : List Nat) (st : LoopState) :
    (runLoopStep c l st).location
      = if 0 < c ∧ leadingField l ∈ GNSS_PREFIXES then l
        else st.location := by
  unfold runLoopStep
  by_cases hc : 0 < c
  · cases ha : st.active <;>
      by_cases hm : leadingField l ∈ GNSS_PREFIXES <;> simp [hc, ha, hm]
  · cases ha : st.active <;> simp [hc, ha]

/-- C4: at every check point of the lifecycle loop (i.e. after any
iteration, from any start state), the device session is open if and only
if the connection set was non-empty in that iteration; an iteration seeing
clients with no open session opens exactly one new session (fresh
identifier, counter advanced by one); an iteration seeing clients with an
open session reuses that very session and opens nothing; an iteration
seeing no clients closes and discards the session. -/
theorem C4_lifecycle_session_iff_clients (inputs : List (Nat × List Nat))
    (st0 : LoopState) (c : Nat) (l : List Nat) :
    ((runLoopStep c l (runLoop inputs st0)).active.isSome ↔ 0 < c)
    ∧ (0 < c → (runLoop inputs st0).active = none →
        (runLoopStep c l (runLoop inputs st0)).active
            = some (runLoop inputs st0).nextId
          ∧ (runLoopStep c l (runLoop inputs st0)).nextId
            = (runLoop inputs st0).nextId + 1)
    ∧ (0 < c → ∀ i, (runLoop inputs st0).active = some i →
        (runLoopStep c l (runLoop inputs st0)).active = some i
          ∧ (runLoopStep c l (runLoop inputs st0)).nextId
            = (runLoop inputs st0).nextId)
    ∧ (c = 0 → (runLoopStep c l (runLoop inputs st0)).active = none
        ∧ (runLoopStep c l (runLoop inputs st0)).nextId
          = (runLoop inputs st0).nextId) := by
  generalize runLoop inputs st0 = st
  refine ⟨?_, ?_, ?_, ?_⟩
  · rw [runLoopStep_active]
    by_cases hc : 0 < c
    · cases ha : st.active <;> simp [hc, ha]
    · simp [hc]
  · intro hc ha
    rw [runLoopStep_active, runLoopStep_nextId]
    simp [hc, ha]
  · intro hc i ha
    rw [runLoopStep_active, runLoopStep_nextId]
    simp [hc, ha]
  · intro hc
    subst hc
    rw [runLoopStep_active, runLoopStep_nextId]
    simp

/-- Witness for C4: from a fresh state, one iteration with one client
connected opens exactly the session tagged with the current counter. -/
theorem C4_lifecycle_session_iff_clients_witness :
    (runLoopStep 1 [] (runLoop [] ⟨none, 0, []⟩)).active
        = some (runLoop [] ⟨none, 0, []⟩).nextId
      ∧ (runLoopStep 1 [] (runLoop [] ⟨none, 0, []⟩)).nextId
        = (runLoop [] ⟨none, 0, []⟩).nextId + 1 :=
  (C4_lifecycle_session_iff_clients [] ⟨none, 0, []⟩ 1 []).2.1
    (by decide) (by decide)

/-- C5: in an iteration that reads a line (some client connected), the
shared location is replaced by that line if its leading comma-delimited
field is one of the recognized GNSS prefixes, and is left unchanged
otherwise. -/
theorem C5_location_updated_iff_gnss_talker (c : Nat) (l : List Nat)
    (st : LoopState) (hc : 0 < c) :
    (leadingField l ∈ GNSS_PREFIXES → (runLoopStep c l st).location = l)
    ∧ (leadingField l ∉ GNSS_PREFIXES →
        (runLoopStep c l st).location = st.location) := by
  constructor <;> intro hm <;> rw [runLoopStep_location] <;> simp [hc, hm]

/-- Witness for C5: a `$GPGGA` line replaces the location; a `$GPGSV`
line leaves it unchanged. -/
theorem C5_location_updated_iff_gnss_talker_witness :
    (runLoopStep 1 (bytes "$GPGGA,1,2\n") ⟨some 0, 1, []⟩).location
        = bytes "$GPGGA,1,2\n"
      ∧ (runLoopStep 1 (bytes "$GPGSV,1,2\n")
          ⟨some 0, 1, bytes "old\n"⟩).location = bytes "old\n" :=
  ⟨(C5_location_updated_iff_gnss_talker 1 (bytes "$GPGGA,1,2\n") ⟨some 0, 1, []⟩
      (by decide)).1 (by decide),
    (C5_location_updated_iff_gnss_talker 1 (bytes "$GPGSV,1,2\n")
      ⟨some 0, 1, bytes "old\n"⟩ (by decide)).2 (by decide)⟩

/- ## The per-connection broadcaster of `GnssShare` -/

/-- `GnssShare._get_location`: the empty byte string when no driver is
active, else the shared location. -/
def getLocation (active : Option Nat) (location : List Nat) : List Nat :=
  if active.isNone then [] else location

/-- One iteration of the send loop in
`GnssShare._handle_socket_connection`: fetch the location and send it to
the client only when it is non-empty (`if location:`); `none` means the
iteration sent nothing. -/
def broadcastIterSend (active : Option Nat) (location : List Nat) :
    Option (List Nat) :=
  let loc := getLocation active location
  if loc = [] then none else some loc

/-- Everything a connection's task sends, given the per-iteration
snapshots of the shared state (active driver, location). -/
def broadcastSends (snaps : List (Option Nat × List Nat)) :
    List (List Nat) :=
  snaps.filterMap fun p => broadcastIterSend p.1 p.2

/-- C6: in every iteration of every per-connection broadcast task, nothing
is sent when the location obtained for that iteration is empty: whatever
the sequence of state snapshots, every transmitted message is non-empty.
-/
theorem C6_broadcaster_never_sends_empty
    (snaps : List (Option Nat × List Nat)) :
    (broadcastSends snaps).all (fun m => !m.isEmpty) = true := by
  induction snaps with
  | nil => rfl
  | cons p t ih =>
    cases hp : broadcastIterSend p.1 p.2 with
    | none => simpa [broadcastSends, List.filterMap_cons, hp] using ih
    | some x =>
      have hx : x ≠ [] := by
        unfold broadcastIterSend at hp
        by_cases hz : getLocation p.1 p.2 = []
        · simp [hz] at hp
        · simp [hz] at hp
          rw [← hp]
          exact hz
      have hxe : x.isEmpty = false := by
        cases x
        · exact absurd rfl hx
        · rfl
      simpa [broadcastSends, List.filterMap_cons, hp, hxe] using ih

/- ## Suspension events of the two `readline` variants -/

/-- I/O suspension events issued during one `readline` call. -/
inductive IoEv
  | read
  | sleep
deriving DecidableEq, Repr

/-- The chunk loop of `STM_AGPS.readline` (file transport), instrumented
with its suspension events: every `receive_some(40)` is a `read`; an
iteration that found no newline runs `await trio.sleep(0.5)` before the
next read. -/
def readlineLoopEvFile : List Nat → List (List Nat) →
    Option (List Nat × FramerState) × List IoEv
  | _, [] => (none, [])
  | buf, data :: rest =>
    match splitAtNl data with
    | some (pre, post) => (some (buf ++ pre, ⟨post, rest⟩), [IoEv.read])
    | none =>
      let r := readlineLoopEvFile (buf ++ data) rest
      (r.1, IoEv.read :: IoEv.sleep :: r.2)

/-- `STM_AGPS.readline` instrumented with its suspension events. -/
def readlineEvFile (s : FramerState) :
    Option (List Nat × FramerState) × List IoEv :=
  match splitAtNl s.buf with
  | some (pre, post) => (some (pre, ⟨post, s.chunks⟩), [])
  | none => readlineLoopEvFile s.buf s.chunks

/-- The chunk loop of `STM_AGPS_SERIAL.readline` (serial transport): the
same algorithm, but its body contains no sleep call at all. -/
def readlineLoopEvSerial : List Nat → List (List Nat) →
    Option (List Nat × FramerState) × List IoEv
  | _, [] => (none, [])
  | buf, data :: rest =>
    match splitAtNl data with
    | some (pre, post) => (some (buf ++ pre, ⟨post, rest⟩), [IoEv.read])
    | none =>
      let r := readlineLoopEvSerial (buf ++ data) rest
      (r.1, IoEv.read :: r.2)

/-- `STM_AGPS_SERIAL.readline` instrumented with its suspension events. -/
def readlineEvSerial (s : FramerState) :
    Option (List Nat × FramerState) × List IoEv :=
  match splitAtNl s.buf with
  | some (pre, post) => (some (pre, ⟨post, s.chunks⟩), [])
  | none => readlineLoopEvSerial s.buf s.chunks

/-- Checks that no two read events are adjacent, i.e. that some sleep
suspension separates any two consecutive reads. -/
def sleepBetweenReads : List IoEv → Bool
  | IoEv.read :: IoEv.read :: _ => false
  | _ :: rest => sleepBetweenReads rest
  | [] => true

theorem readlineLoopEvFile_fst : ∀ (chunks : List (List Nat))
    (buf : List Nat), (readlineLoopEvFile buf chunks).1
      = readlineLoop buf chunks := by
  intro chunks
  induction chunks with
  | nil => intro buf; rfl
  | cons data rest ih =>
    intro buf
    cases hsp : splitAtNl data <;>
      simp [readlineLoopEvFile, readlineLoop, hsp, ih]

theorem readlineLoopEvSerial_fst : ∀ (chunks : List (List Nat))
    (buf : List Nat), (readlineLoopEvSerial buf chunks).1
      = readlineLoop buf chunks := by
  intro chunks
  induction chunks with
  | nil => intro buf; rfl
  | cons data rest ih =>
    intro buf
    cases hsp : splitAtNl data <;>
      simp [readlineLoopEvSerial, readlineLoop, hsp, ih]

theorem readlineEvFile_fst (s : FramerState) :
    (readlineEvFile s).1 = readline s := by
  unfold readlineEvFile readline
  cases hsp : splitAtNl s.buf <;> simp [hsp, readlineLoopEvFile_fst]

theorem readlineEvSerial_fst (s : FramerState) :
    (readlineEvSerial s).1 = readline s := by
  unfold readlineEvSerial readline
  cases hsp : splitAtNl s.buf <;> simp [hsp, readlineLoopEvSerial_fst]

/-- C9 counterexample: on a concrete two-chunk stream whose first chunk
holds no newline, the serial-transport `readline` performs two consecutive
chunk reads with no sleep suspension between them — its loop contains no
sleep call, contradicting the claim for that variant. -/
theorem C9_serial_readline_counterexample :
    (readlineEvSerial ⟨[], [[65], [66, 10]]⟩).2 = [IoEv.read, IoEv.read]
    ∧ sleepBetweenReads (readlineEvSerial ⟨[], [[65], [66, 10]]⟩).2
      = false := by
  constructor
  · decide
  · decide

theorem sleepBetweenReads_file_loop : ∀ (chunks : List (List Nat))
    (buf : List Nat),
    sleepBetweenReads (readlineLoopEvFile buf chunks).2 = true := by
  intro chunks
  induction chunks with
  | nil => intro buf; rfl
  | cons data rest ih =>
    intro buf
    cases hsp : splitAtNl data with
    | some pq => simp [readlineLoopEvFile, hsp, sleepBetweenReads]
    | none =>
      simp only [readlineLoopEvFile, hsp]
      have : sleepBetweenReads
          (IoEv.read :: IoEv.sleep :: (readlineLoopEvFile (buf ++ data)
              rest).2)
          = sleepBetweenReads (readlineLoopEvFile (buf ++ data) rest).2 :=
        rfl
      rw [this]
      exact ih (buf ++ data)

theorem serial_loop_no_sleep : ∀ (chunks : List (List Nat))
    (buf : List Nat),
    ((readlineLoopEvSerial buf chunks).2.all
      fun e => e != IoEv.sleep) = true := by
  intro chunks
  induction chunks with
  | nil => intro buf; rfl
  | cons data rest ih =>
    intro buf
    cases hsp : splitAtNl data with
    | some pq => simp [readlineLoopEvSerial, hsp]
    | none =>
      simp only [readlineLoopEvSerial, hsp, List.all_cons]
      rw [ih (buf ++ data)]
      rfl

/-- C9 (amended): the file-transport `readline` chunk loop performs a
sleep suspension between any two consecutive reads, but the
serial-transport variant's loop performs no sleep at all (it relies on
its blocking read), so the claimed sleep-between-iterations holds for the
stm file transport only, not for both variants. -/
theorem C9_sleep_between_reads_amended (s : FramerState) :
    sleepBetweenReads (readlineEvFile s).2 = true
    ∧ ((readlineEvSerial s).2.all fun e => e != IoEv.sleep) = true := by
  constructor
  · unfold readlineEvFile
    cases hsp : splitAtNl s.buf with
    | some pq =>
      simp only [hsp]
      rfl
    | none => exact sleepBetweenReads_file_loop s.chunks s.buf
  · unfold readlineEvSerial
    cases hsp : splitAtNl s.buf with
    | some pq => simp
    | none => exact serial_loop_no_sleep s.chunks s.buf
